import Mathlib

/-
Verification of the RBM (Restricted Boltzmann Machine) core of the shogun
toolkit, shallowly embedded from src/shogun/neuralnets/RBM.cpp.

Modelling conventions:
- float64 arithmetic is modelled over an arbitrary linear ordered field.
- exp and log are abstract function parameters `ef` and `lf`; theorems that
  need analytic facts about them take those facts as hypotheses and are
  instantiated with Real.exp / Real.log in witnesses.
- SGMatrix values are modelled as total functions over indices, column major
  where flat indexing matters; matrix dimensions are tracked separately.
- the PRNG is modelled as two ambient streams, `ur` for the uniform real
  draws of m_uniform_prob and `ui` for integer draws, together with a stream
  position `rng_pos` stored in the model state; every draw consumes one
  position.
-/

set_option linter.unusedSectionVars false

namespace Shogun

/-- Visible unit types, from ERBMVisibleUnitType. -/
inductive ERBMVisibleUnitType
  | RBMVUT_BINARY
  | RBMVUT_SOFTMAX
  | RBMVUT_GAUSSIAN
deriving DecidableEq, Repr

open ERBMVisibleUnitType

/-- The mutable state of an RBM object: registry of visible unit groups,
flat parameter vector, batch state buffers and the PRNG position.
Matrix buffers are total functions; `hidden_dims` and `visible_dims` record
the allocated dimensions of the two state buffers. -/
structure RBM (α : Type) where
  m_num_hidden : ℕ
  m_num_visible : ℕ
  m_num_visible_groups : ℕ
  m_visible_group_sizes : List ℕ
  m_visible_group_types : List ERBMVisibleUnitType
  m_visible_state_offsets : List ℕ
  m_num_params : ℕ
  m_params : ℕ → α
  m_batch_size : ℕ
  hidden_state : ℕ → ℕ → α
  visible_state : ℕ → ℕ → α
  hidden_dims : ℕ × ℕ
  visible_dims : ℕ × ℕ
  rng_pos : ℕ

variable {α : Type} [LinearOrderedField α]

/-- RBM::init(): counters zero, lists empty, no buffers allocated.
Unallocated buffer contents are represented by the constant 0 placeholder;
no theorem below depends on that placeholder value. -/
def initRBM : RBM α :=
  { m_num_hidden := 0
    m_num_visible := 0
    m_num_visible_groups := 0
    m_visible_group_sizes := []
    m_visible_group_types := []
    m_visible_state_offsets := []
    m_num_params := 0
    m_params := fun _ => 0
    m_batch_size := 0
    hidden_state := fun _ _ => 0
    visible_state := fun _ _ => 0
    hidden_dims := (0, 0)
    visible_dims := (0, 0)
    rng_pos := 0 }

/-- RBM::add_visible_group(num_units, unit_type): appends a group; the new
offset is 0 for the first group, otherwise the previous offset plus the
previous size (read, as in the source, from the size list after the push). -/
def addVisibleGroup (r : RBM α) (num_units : ℕ)
    (unit_type : ERBMVisibleUnitType) : RBM α :=
  let sizes := r.m_visible_group_sizes ++ [num_units]
  let types := r.m_visible_group_types ++ [unit_type]
  let n := r.m_visible_state_offsets.length
  let newOffset :=
    if n = 0 then 0
    else r.m_visible_state_offsets.getD (n - 1) 0 + sizes.getD (n - 1) 0
  { r with
    m_num_visible_groups := r.m_num_visible_groups + 1
    m_num_visible := r.m_num_visible + num_units
    m_visible_group_sizes := sizes
    m_visible_group_types := types
    m_visible_state_offsets := r.m_visible_state_offsets ++ [newOffset] }

/-- Registry invariant: the three group lists have equal lengths, the group
count and the visible unit count agree with them, and every offset is the
sum of the sizes of the preceding groups. -/
def registryWF (r : RBM α) : Prop :=
  r.m_visible_state_offsets.length = r.m_visible_group_sizes.length
  ∧ r.m_visible_group_types.length = r.m_visible_group_sizes.length
  ∧ r.m_num_visible_groups = r.m_visible_group_sizes.length
  ∧ r.m_visible_group_sizes.sum = r.m_num_visible
  ∧ ∀ k, k < r.m_visible_group_sizes.length →
      r.m_visible_state_offsets.getD k 0 = (r.m_visible_group_sizes.take k).sum

/-- RBM::get_weights on a flat parameter vector p: a num_hidden x
num_visible column-major matrix starting at offset num_visible, so entry
(i, j) is p (nv + j * nh + i) and the block is the index range
[nv, nv + nh * nv). -/
def get_weights (nv nh : ℕ) (p : ℕ → α) : ℕ → ℕ → α :=
  fun i j => p (nv + j * nh + i)

/-- RBM::get_hidden_bias on a flat parameter vector p: length num_hidden
starting at offset num_visible + num_visible * num_hidden. -/
def get_hidden_bias (nv nh : ℕ) (p : ℕ → α) : ℕ → α :=
  fun i => p (nv + nv * nh + i)

/-- RBM::get_visible_bias on a flat parameter vector p: length num_visible
starting at offset 0. -/
def get_visible_bias (p : ℕ → α) : ℕ → α :=
  fun i => p i

/-- The index range of the weight block of the flat parameter vector, as
designated by get_weights: [num_visible, num_visible + num_hidden * num_visible). -/
def inWeightBlock (nv nh idx : ℕ) : Prop :=
  nv ≤ idx ∧ idx < nv + nh * nv

instance (nv nh idx : ℕ) : Decidable (inWeightBlock nv nh idx) := by
  unfold inWeightBlock; infer_instance

/-- The regularization step at the end of RBM::contrastive_divergence
(lines 382-397): if l2_coefficient is positive, add
l2_coefficient * m_params[i + nv + nh] to gradients[i + nv + nh] for every
i < nh * nv, and then likewise for l1_coefficient.  The touched index range
is [nv + nh, nv + nh + nh * nv). -/
def cd_regularization (nv nh : ℕ) (l1 l2 : α) (params g : ℕ → α) : ℕ → α :=
  let g2 := fun idx =>
    if 0 < l2 ∧ nv + nh ≤ idx ∧ idx < nv + nh + nh * nv
    then g idx + l2 * params idx else g idx
  fun idx =>
    if 0 < l1 ∧ nv + nh ≤ idx ∧ idx < nv + nh + nh * nv
    then g2 idx + l1 * params idx else g2 idx

/-- The cumulative-sum scan of the Softmax branch of RBM::sample_visible:
starting from accumulator acc, add each group probability in turn and
return the first index at which the draw r satisfies r <= sum (the loop
breaks there), if any. -/
def softmaxCumScan (r acc : α) : List α → Option ℕ
  | [] => none
  | p :: ps =>
    if r ≤ acc + p then some 0 else (softmaxCumScan r (acc + p) ps).map (· + 1)

/-- Column j of the Softmax group block written by
RBM::sample_visible(index, mean, result) when mean and result are distinct
matrices: the block entries of the column are zeroed, one integer draw ri
(from UniformIntDistribution(0, 1)) is compared against the cumulative sum
of the group means of that column, and the first unit whose cumulative sum
reaches the draw is set to 1.  Entry i is relative to the group offset. -/
def sample_visible_softmax_col (ri : ℤ) (off sz : ℕ) (mean : ℕ → ℕ → α)
    (j : ℕ) : ℕ → α :=
  fun i =>
    if i < sz ∧ softmaxCumScan ((ri : α)) 0
        ((List.range sz).map (fun i2 => mean (off + i2) j)) = some i
    then 1 else 0

/-- The concrete Softmax group means used in the C2 counterexample:
a two-unit group with probabilities 3/10 and 7/10 in batch column 0. -/
def softmaxBugMeans : ℕ → ℕ → ℚ :=
  fun i _ => if i = 0 then 3/10 else 7/10

/-- State mutated by the mini-batch loop of RBM::train: the parameter
vector, the momentum velocity buffer param_updates, and the current
learning rate alpha. -/
structure TrainState (α : Type) where
  m_params : ℕ → α
  param_updates : ℕ → α
  alpha : α

/-- Lines 154-155 of RBM::train: m_params[k] += gd_momentum * param_updates[k]
for every k < m_num_params, executed before contrastive_divergence. -/
def lookaheadParams (n : ℕ) (momentum : α) (p v : ℕ → α) : ℕ → α :=
  fun k => if k < n then p k + momentum * v k else p k

/-- The body of the mini-batch loop of RBM::train (lines 146-165): decay
the learning rate once, add momentum times the velocity to the parameters,
compute the gradients (contrastive_divergence, abstracted here as a
function g of the parameter vector it reads), then set
param_updates[k] = momentum * param_updates[k] - alpha * gradients[k] and
m_params[k] -= alpha * gradients[k] for every k < n.  The epoch loop of
train runs this body exactly once per mini-batch. -/
def trainMiniBatchStep (n : ℕ) (momentum decay : α)
    (g : (ℕ → α) → ℕ → α) (s : TrainState α) : TrainState α :=
  let alpha := decay * s.alpha
  let p1 := lookaheadParams n momentum s.m_params s.param_updates
  let grad := g p1
  { m_params := fun k => if k < n then p1 k - alpha * grad k else p1 k
    param_updates := fun k =>
      if k < n then momentum * s.param_updates k - alpha * grad k
      else s.param_updates k
    alpha := alpha }

variable (ur : ℕ → α) (ui : ℕ → ℤ) (ef lf : α → α)

/-- RBM::reset_chain(): every visible chain entry (i, j) with
i < m_num_visible and j < m_batch_size is set to 1 if a fresh uniform draw
exceeds 0.5, else 0; draws are consumed in loop order (i outer, j inner),
so entry (i, j) reads stream position rng_pos + i * m_batch_size + j. -/
def resetChain (r : RBM α) : RBM α :=
  { r with
    visible_state := fun i j =>
      if i < r.m_num_visible ∧ j < r.m_batch_size then
        (if 1 / 2 < ur (r.rng_pos + i * r.m_batch_size + j) then 1 else 0)
      else r.visible_state i j
    rng_pos := r.rng_pos + r.m_num_visible * r.m_batch_size }

/-- RBM::set_batch_size(batch_size): returns immediately if the size is
unchanged; otherwise records the new batch size, allocates fresh hidden and
visible state buffers with the new dimensions (the source leaves fresh
buffer contents unspecified; the placeholder 0 stands for them and no
theorem depends on it) and calls reset_chain. -/
def set_batch_size (r : RBM α) (batch_size : ℕ) : RBM α :=
  if r.m_batch_size = batch_size then r
  else
    resetChain ur
      { r with
        m_batch_size := batch_size
        hidden_state := fun _ _ => 0
        visible_state := fun _ _ => 0
        hidden_dims := (r.m_num_hidden, batch_size)
        visible_dims := (r.m_num_visible, batch_size) }

/-- RBM::mean_hidden(visible, result): result = sigmoid of
(W * visible plus the hidden bias broadcast over columns), with
sigmoid(x) = 1 / (1 + exp(-1 * x)). -/
def mean_hidden_mat (r : RBM α) (v : ℕ → ℕ → α) : ℕ → ℕ → α :=
  fun i j =>
    1 / (1 + ef (-1 * (get_hidden_bias r.m_num_visible r.m_num_hidden r.m_params i
      + ∑ k2 ∈ Finset.range r.m_num_visible,
          get_weights r.m_num_visible r.m_num_hidden r.m_params i k2 * v k2 j)))

/-- The linear activation computed at the start of RBM::mean_visible:
the visible bias broadcast over columns plus W transposed times hidden. -/
def mean_visible_act (r : RBM α) (h : ℕ → ℕ → α) : ℕ → ℕ → α :=
  fun i j =>
    get_visible_bias r.m_params i
      + ∑ k2 ∈ Finset.range r.m_num_hidden,
          get_weights r.m_num_visible r.m_num_hidden r.m_params k2 i * h k2 j

/-- The maximum scan of the Softmax branch of RBM::mean_visible: starting
from entry (offset, 0), scan every entry of the group block over all batch
columns (i outer, j inner), keeping the largest value seen. -/
def group_max (off sz bs : ℕ) (m : ℕ → ℕ → α) : α :=
  (List.range sz).foldl
    (fun acc i => (List.range bs).foldl
      (fun acc2 j => max acc2 (m (off + i) j)) acc)
    (m off 0)

/-- One iteration of the per-group activation loop of RBM::mean_visible:
a Binary group gets the sigmoid on its block, a Softmax group subtracts the
block maximum, exponentiates and normalizes per column in the log domain,
and a Gaussian group keeps the linear activation. -/
def group_transform (bs off sz : ℕ) (ty : ERBMVisibleUnitType)
    (m : ℕ → ℕ → α) : ℕ → ℕ → α :=
  match ty with
  | RBMVUT_BINARY => fun i j =>
      if off ≤ i ∧ i < off + sz ∧ j < bs
      then 1 / (1 + ef (-1 * m i j)) else m i j
  | RBMVUT_SOFTMAX => fun i j =>
      if off ≤ i ∧ i < off + sz ∧ j < bs
      then ef (m i j - group_max off sz bs m
        - lf (∑ i2 ∈ Finset.range sz, ef (m (off + i2) j - group_max off sz bs m)))
      else m i j
  | RBMVUT_GAUSSIAN => fun i j => m i j

/-- RBM::mean_visible(hidden, result): the linear activations followed by
the per-group transform applied to each registered group in order. -/
def mean_visible_mat (r : RBM α) (h : ℕ → ℕ → α) : ℕ → ℕ → α :=
  (List.range r.m_num_visible_groups).foldl
    (fun m k => group_transform ef lf r.m_batch_size
      (r.m_visible_state_offsets.getD k 0)
      (r.m_visible_group_sizes.getD k 0)
      (r.m_visible_group_types.getD k RBMVUT_BINARY) m)
    (mean_visible_act r h)

/-- Store a computed matrix into the hidden state buffer; only the
allocated num_hidden x batch_size block is written. -/
def write_hidden (r : RBM α) (m : ℕ → ℕ → α) : RBM α :=
  { r with
    hidden_state := fun i j =>
      if i < r.m_num_hidden ∧ j < r.m_batch_size then m i j
      else r.hidden_state i j }

/-- Store a computed matrix into the visible state buffer; only the
allocated num_visible x batch_size block is written. -/
def write_visible (r : RBM α) (m : ℕ → ℕ → α) : RBM α :=
  { r with
    visible_state := fun i j =>
      if i < r.m_num_visible ∧ j < r.m_batch_size then m i j
      else r.visible_state i j }

/-- RBM::sample_hidden(mean, result), called with mean and result both the
hidden state buffer: each entry becomes 1 if a fresh uniform draw lies
below the mean, else 0 (each entry is read before it is overwritten); the
flat loop visits entries in column-major order, so entry (i, j) consumes
stream position rng_pos + j * num_hidden + i. -/
def sample_hidden_st (r : RBM α) : RBM α :=
  { r with
    hidden_state := fun i j =>
      if i < r.m_num_hidden ∧ j < r.m_batch_size then
        (if ur (r.rng_pos + j * r.m_num_hidden + i) < r.hidden_state i j
         then 1 else 0)
      else r.hidden_state i j
    rng_pos := r.rng_pos + r.m_num_hidden * r.m_batch_size }

/-- RBM::sample_visible(index, mean, result): at every call site in the
source, mean and result are both the visible state buffer, and the
aliasing is modelled here.  Binary: every block entry is replaced by a
Bernoulli draw against its current value (each entry read before written),
consuming size * batch_size draws (i outer, j inner).  Softmax: the whole
block is zeroed first, so the cumulative-sum scan that follows reads the
zeroed buffer; one integer draw is consumed per batch column.  A Gaussian
group is not resampled. -/
def sample_visible_group_st (k : ℕ) (r : RBM α) : RBM α :=
  let off := r.m_visible_state_offsets.getD k 0
  let sz := r.m_visible_group_sizes.getD k 0
  let bs := r.m_batch_size
  match r.m_visible_group_types.getD k RBMVUT_BINARY with
  | RBMVUT_BINARY =>
    { r with
      visible_state := fun i j =>
        if off ≤ i ∧ i < off + sz ∧ j < bs then
          (if ur (r.rng_pos + (i - off) * bs + j) < r.visible_state i j
           then 1 else 0)
        else r.visible_state i j
      rng_pos := r.rng_pos + sz * bs }
  | RBMVUT_SOFTMAX =>
    let z := fun i j =>
      if off ≤ i ∧ i < off + sz ∧ j < bs then (0 : α) else r.visible_state i j
    { r with
      visible_state := fun i j =>
        if off ≤ i ∧ i < off + sz ∧ j < bs then
          (if softmaxCumScan ((ui (r.rng_pos + j) : ℤ) : α) 0
              ((List.range sz).map (fun i2 => z (off + i2) j)) = some (i - off)
           then 1 else 0)
        else r.visible_state i j
      rng_pos := r.rng_pos + bs }
  | RBMVUT_GAUSSIAN => r

/-- RBM::sample_visible(mean, result) (both the visible state buffer):
samples every registered group in order. -/
def sample_visible_all_st (r : RBM α) : RBM α :=
  (List.range r.m_num_visible_groups).foldl
    (fun s k => sample_visible_group_st ur ui k s) r

/-- The inner sampling loop of RBM::sample_with_evidence: every group
whose index differs from the evidence group index E is resampled. -/
def sample_visible_except_st (E : ℤ) (r : RBM α) : RBM α :=
  (List.range r.m_num_visible_groups).foldl
    (fun s (k : ℕ) =>
      if (k : ℤ) = E then s else sample_visible_group_st ur ui k s) r

/-- One iteration of the Gibbs loop of RBM::sample: mean_hidden into the
hidden buffer, sample_hidden in place, mean_visible into the visible
buffer, and, on every iteration except the last, sample_visible in place. -/
def gibbs_step (last : Bool) (r : RBM α) : RBM α :=
  let r1 := write_hidden r (mean_hidden_mat ef r r.visible_state)
  let r2 := sample_hidden_st ur r1
  let r3 := write_visible r2 (mean_visible_mat ef lf r2 r2.hidden_state)
  if last then r3 else sample_visible_all_st ur ui r3

/-- RBM::sample(num_gibbs_steps, batch_size): set_batch_size and then the
Gibbs loop; the final visible sample is skipped on the last iteration. -/
def sample (num_gibbs_steps batch_size : ℕ) (r : RBM α) : RBM α :=
  (List.range num_gibbs_steps).foldl
    (fun s i => gibbs_step ur ui ef lf
      (if i < num_gibbs_steps - 1 then false else true) s)
    (set_batch_size ur r batch_size)

/-- RBM::sample_group(V, num_gibbs_steps, batch_size): the require checks
only V < m_num_visible_groups (a negative V passes the check and leads to
an out-of-bounds access in the source, modelled by the toNat clamp); on
success the Gibbs sampler runs and the group block of the visible state is
copied out (the result matrix has m_visible_group_sizes[V] rows and
m_batch_size columns). -/
def sample_group (V : ℤ) (num_gibbs_steps batch_size : ℕ) (r : RBM α) :
    Except String ((ℕ → ℕ → α) × RBM α) :=
  if V < (r.m_num_visible_groups : ℤ) then
    let r2 := sample ur ui ef lf num_gibbs_steps batch_size r
    let off := r2.m_visible_state_offsets.getD V.toNat 0
    Except.ok ((fun i j => r2.visible_state (i + off) j), r2)
  else Except.error "Visible group index out of bounds"

/-- The clamping loop of RBM::sample_with_evidence (run once before the
Gibbs loop and again after every Gibbs step): overwrite the evidence group
block of the visible state with the evidence matrix. -/
def clamp_group (off sz : ℕ) (evidence : ℕ → ℕ → α) (r : RBM α) : RBM α :=
  { r with
    visible_state := fun i j =>
      if off ≤ i ∧ i < off + sz ∧ j < r.m_batch_size
      then evidence (i - off) j else r.visible_state i j }

/-- One iteration of the Gibbs loop of RBM::sample_with_evidence, without
the trailing clamp: mean_hidden, sample_hidden, mean_visible, and, on
every iteration except the last, resampling of every group other than the
evidence group. -/
def swe_gibbs_inner (E : ℤ) (steps n : ℕ) (r : RBM α) : RBM α :=
  let r1 := write_hidden r (mean_hidden_mat ef r r.visible_state)
  let r2 := sample_hidden_st ur r1
  let r3 := write_visible r2 (mean_visible_mat ef lf r2 r2.hidden_state)
  if n < steps - 1 then sample_visible_except_st ur ui E r3 else r3

/-- One full iteration of the Gibbs loop of RBM::sample_with_evidence:
the inner Gibbs step followed by re-clamping the evidence group block. -/
def swe_gibbs_step (E : ℤ) (off sz : ℕ) (evidence : ℕ → ℕ → α)
    (steps n : ℕ) (r : RBM α) : RBM α :=
  clamp_group off sz evidence (swe_gibbs_inner ur ui ef lf E steps n r)

/-- The body of RBM::sample_with_evidence after its require check:
set_batch_size to the evidence column count, clamp the evidence group
block to the evidence matrix, then run the Gibbs loop with the clamp
re-applied after every iteration. -/
def swe_core (E : ℤ) (evidence : ℕ → ℕ → α)
    (evidence_cols num_gibbs_steps : ℕ) (r : RBM α) : RBM α :=
  let r1 := set_batch_size ur r evidence_cols
  let off := r1.m_visible_state_offsets.getD E.toNat 0
  let sz := r1.m_visible_group_sizes.getD E.toNat 0
  let r2 := clamp_group off sz evidence r1
  (List.range num_gibbs_steps).foldl
    (fun s n => swe_gibbs_step ur ui ef lf E off sz evidence
      num_gibbs_steps n s) r2

/-- RBM::sample_with_evidence(E, evidence, num_gibbs_steps): the require
checks only E < m_num_visible_groups, before any state is modified. -/
def sample_with_evidence (E : ℤ) (evidence : ℕ → ℕ → α)
    (evidence_cols num_gibbs_steps : ℕ) (r : RBM α) :
    Except String (RBM α) :=
  if E < (r.m_num_visible_groups : ℤ) then
    Except.ok (swe_core ur ui ef lf E evidence evidence_cols num_gibbs_steps r)
  else Except.error "Visible group index out of bounds"

/-- RBM::sample_group_with_evidence(V, E, evidence, num_gibbs_steps):
checks V (upper bound only), then delegates to sample_with_evidence (which
checks E), then copies the block of group V out of the visible state. -/
def sample_group_with_evidence (V E : ℤ) (evidence : ℕ → ℕ → α)
    (evidence_cols num_gibbs_steps : ℕ) (r : RBM α) :
    Except String ((ℕ → ℕ → α) × RBM α) :=
  if V < (r.m_num_visible_groups : ℤ) then
    match sample_with_evidence ur ui ef lf E evidence evidence_cols
        num_gibbs_steps r with
    | Except.ok r2 =>
      let off := r2.m_visible_state_offsets.getD V.toNat 0
      Except.ok ((fun i j => r2.visible_state (i + off) j), r2)
    | Except.error e => Except.error e
  else Except.error "Visible group index out of bounds"

/-- The value computed by RBM::free_energy after its set_batch_size call:
bv_term sums the visible bias against the visible matrix over all columns,
wv_term sums log(1 + exp(hidden bias + W * visible)) over hidden units and
columns, F = -1 * (bv_term + wv_term) / batch_size, and every Gaussian
group adds 0.5 * visible(i + offset, j)^2 / batch_size per block entry. -/
def free_energy_val (r : RBM α) (v : ℕ → ℕ → α) : α :=
  let nv := r.m_num_visible
  let nh := r.m_num_hidden
  let bs := r.m_batch_size
  let bv_term := ∑ j ∈ Finset.range bs, ∑ i ∈ Finset.range nv,
    get_visible_bias r.m_params i * v i j
  let wv_term := ∑ i ∈ Finset.range nh, ∑ j ∈ Finset.range bs,
    lf (1 + ef (get_hidden_bias nv nh r.m_params i
      + ∑ k2 ∈ Finset.range nv, get_weights nv nh r.m_params i k2 * v k2 j))
  let F := -1 * (bv_term + wv_term) / (bs : α)
  (List.range r.m_num_visible_groups).foldl
    (fun acc k =>
      if r.m_visible_group_types.getD k RBMVUT_BINARY = RBMVUT_GAUSSIAN then
        acc + ∑ i ∈ Finset.range (r.m_visible_group_sizes.getD k 0),
          ∑ j ∈ Finset.range bs,
            1 / 2 * v (i + r.m_visible_state_offsets.getD k 0) j ^ 2 / (bs : α)
      else acc)
    F

/-- RBM::free_energy(visible, buffer): set_batch_size to the visible
column count, then the free energy value; the buffer argument is caller
scratch and affects neither the returned value nor the member state. -/
def free_energy (r : RBM α) (v : ℕ → ℕ → α) (v_cols : ℕ) : α × RBM α :=
  let r1 := set_batch_size ur r v_cols
  (free_energy_val ef lf r1 v, r1)

/-- RBM::reconstruction_error(visible, buffer): set_batch_size, one
mean-field reconstruction (mean_hidden into the hidden buffer,
sample_hidden in place, mean_visible into the caller buffer), and the
summed squared error divided by the batch size. -/
def reconstruction_error (r : RBM α) (v : ℕ → ℕ → α) (v_cols : ℕ) :
    α × RBM α :=
  let r1 := set_batch_size ur r v_cols
  let r2 := write_hidden r1 (mean_hidden_mat ef r1 v)
  let r3 := sample_hidden_st ur r2
  let buffer := mean_visible_mat ef lf r3 r3.hidden_state
  let err := ∑ i ∈ Finset.range r3.m_num_visible,
    ∑ j ∈ Finset.range r3.m_batch_size, (buffer i j - v i j) ^ 2
  (err / (r3.m_batch_size : α), r3)

/-- The body of RBM::pseudo_likelihood after its all-Binary check:
set_batch_size, one random visible row index per batch column (the source
draws uniform integers in [0, m_num_visible - 1]), the free energy of the
input, the free energy with the indexed entry of each column flipped (the
source flips the input in place and restores it afterwards, a net no-op on
the input), and the estimate num_visible * log(1 / (1 + exp(f1 - f2))). -/
def pseudo_likelihood_core (r : RBM α) (v : ℕ → ℕ → α) (v_cols : ℕ) :
    α × RBM α :=
  let r1 := set_batch_size ur r v_cols
  let idx := fun j => (ui (r1.rng_pos + j)).toNat
  let r2 := { r1 with rng_pos := r1.rng_pos + r1.m_batch_size }
  let f1 := (free_energy ur ef lf r2 v v_cols).1
  let v2 := fun i j =>
    if j < r2.m_batch_size ∧ i = idx j then 1 - v i j else v i j
  let f2 := (free_energy ur ef lf r2 v2 v_cols).1
  ((r2.m_num_visible : α) * lf (1 / (1 + ef (f1 - f2))),
    (free_energy ur ef lf r2 v2 v_cols).2)

/-- RBM::pseudo_likelihood(visible, buffer): fatal error unless every
registered visible group is Binary (checked before anything else);
otherwise runs the estimator body. -/
def pseudo_likelihood (r : RBM α) (v : ℕ → ℕ → α) (v_cols : ℕ) :
    Except String (α × RBM α) :=
  if r.m_visible_group_types.all (fun t => t == RBMVUT_BINARY) then
    Except.ok (pseudo_likelihood_core ur ui ef lf r v v_cols)
  else Except.error "Pseudo-likelihood is only supported for binary visible units"

/-- The observable effect of a batch-size change on the state s: the new
batch size is recorded, both state buffers are reallocated with the new
dimensions, and every visible chain entry is re-randomized from the
uniform draws starting at stream position p0. -/
def chain_reset_post (s : RBM α) (nv nh bs p0 : ℕ) : Prop :=
  s.m_batch_size = bs
  ∧ s.hidden_dims = (nh, bs)
  ∧ s.visible_dims = (nv, bs)
  ∧ ∀ i, i < nv → ∀ j, j < bs →
      s.visible_state i j = (if 1 / 2 < ur (p0 + i * bs + j) then 1 else 0)

/-- Following the specification wording, for comparison with the source
computation: the per-column maximum of a Softmax group block. -/
def spec_col_max (off sz : ℕ) (m : ℕ → ℕ → α) (j : ℕ) : α :=
  (List.range sz).foldl (fun acc i => max acc (m (off + i) j)) (m off j)

/-- Following the specification wording, for comparison with the source
computation: the numerically stabilized softmax of the group activations
in one batch column, with the per-column maximum subtracted before
exponentiating and normalization by log-sum-exp. -/
def spec_softmax_entry (off sz : ℕ) (m : ℕ → ℕ → α) (i j : ℕ) : α :=
  ef (m (off + i) j - spec_col_max off sz m j
    - lf (∑ i2 ∈ Finset.range sz, ef (m (off + i2) j - spec_col_max off sz m j)))

/- ## Theorems -/

theorem registryWF_init : registryWF (initRBM (α := α)) := by
  refine ⟨rfl, rfl, rfl, rfl, ?_⟩
  intro k hk
  simp [initRBM] at hk

theorem registryWF_add (r : RBM α) (sz : ℕ) (ty : ERBMVisibleUnitType)
    (h : registryWF r) : registryWF (addVisibleGroup r sz ty) := by
  obtain ⟨h1, h2, h3, h4, h5⟩ := h
  have hof : (addVisibleGroup r sz ty).m_visible_state_offsets =
      r.m_visible_state_offsets ++
        [if r.m_visible_state_offsets.length = 0 then 0
         else r.m_visible_state_offsets.getD
            (r.m_visible_state_offsets.length - 1) 0 +
          (r.m_visible_group_sizes ++ [sz]).getD
            (r.m_visible_state_offsets.length - 1) 0] := rfl
  have hsz : (addVisibleGroup r sz ty).m_visible_group_sizes =
      r.m_visible_group_sizes ++ [sz] := rfl
  have hty : (addVisibleGroup r sz ty).m_visible_group_types =
      r.m_visible_group_types ++ [ty] := rfl
  refine ⟨?_, ?_, ?_, ?_, ?_⟩
  · rw [hof, hsz, List.length_append, List.length_append, h1]
    rfl
  · rw [hty, hsz, List.length_append, List.length_append, h2]
    rfl
  · show r.m_num_visible_groups + 1 = _
    rw [hsz, List.length_append, h3]
    rfl
  · show _ = r.m_num_visible + sz
    rw [hsz, List.sum_append, h4]
    simp
  · intro k hk
    rw [hsz] at hk
    rw [List.length_append] at hk
    rw [hof, hsz]
    rcases Nat.lt_or_ge k r.m_visible_group_sizes.length with hlt | hge
    · -- untouched prefix entry
      rw [List.getD_append _ _ _ _ (by omega),
        List.take_append_of_le_length (by omega), h5 k hlt]
    · -- the appended entry, k = old length
      have hkeq : k = r.m_visible_group_sizes.length := by
        simp only [List.length_singleton] at hk
        omega
      subst hkeq
      rw [List.getD_append_right _ _ _ _ (by omega)]
      rw [h1, Nat.sub_self, List.getD_cons_zero]
      have htake : (r.m_visible_group_sizes ++ [sz]).take
          r.m_visible_group_sizes.length = r.m_visible_group_sizes := by
        rw [List.take_append_of_le_length (le_refl _), List.take_length]
      rw [htake]
      by_cases hL0 : r.m_visible_group_sizes.length = 0
      · have hnil : r.m_visible_group_sizes = [] :=
          List.eq_nil_of_length_eq_zero hL0
        rw [if_pos hL0, hnil]
        rfl
      · rw [if_neg hL0]
        have hgetD : (r.m_visible_group_sizes ++ [sz]).getD
            (r.m_visible_group_sizes.length - 1) 0 =
            r.m_visible_group_sizes.getD (r.m_visible_group_sizes.length - 1) 0 := by
          rw [List.getD_append _ _ _ _ (by omega)]
        rw [hgetD, h5 (r.m_visible_group_sizes.length - 1) (by omega)]
        have hget := List.sum_take_succ r.m_visible_group_sizes
          (r.m_visible_group_sizes.length - 1) (by omega)
        have hsucc : r.m_visible_group_sizes.length - 1 + 1 =
            r.m_visible_group_sizes.length := by omega
        rw [hsucc, List.take_length] at hget
        rw [hget]
        congr 1
        rw [List.getD_eq_getElem _ _ (by omega)]

/-- The registry built from a fresh model by any sequence of
add_visible_group calls satisfies the registry invariant. -/
theorem registryWF_fold (calls : List (ℕ × ERBMVisibleUnitType)) :
    registryWF (calls.foldl (fun s c => addVisibleGroup s c.1 c.2)
      (initRBM (α := α))) := by
  suffices h : ∀ (r : RBM α), registryWF r →
      registryWF (calls.foldl (fun s c => addVisibleGroup s c.1 c.2) r) by
    exact h _ registryWF_init
  induction calls with
  | nil => intro r hr; simpa using hr
  | cons c rest ih =>
    intro r hr
    exact ih _ (registryWF_add r c.1 c.2 hr)


theorem set_batch_size_noop (r : RBM α) (bs : ℕ) (h : r.m_batch_size = bs) :
    set_batch_size ur r bs = r := by
  simp [set_batch_size, h]

theorem set_batch_size_changed (r : RBM α) (bs : ℕ)
    (hbs : bs ≠ r.m_batch_size) :
    chain_reset_post ur (set_batch_size ur r bs)
      r.m_num_visible r.m_num_hidden bs r.rng_pos
    ∧ (set_batch_size ur r bs).rng_pos = r.rng_pos + r.m_num_visible * bs := by
  have hne : ¬ r.m_batch_size = bs := fun h => hbs h.symm
  unfold set_batch_size resetChain chain_reset_post
  rw [if_neg hne]
  refine ⟨⟨rfl, rfl, rfl, ?_⟩, rfl⟩
  intro i hi j hj
  simp [hi, hj]

/-- All fields of the model other than the batch size, the state buffers,
their dimensions and the rng position are untouched by set_batch_size. -/
theorem set_batch_size_fields (r : RBM α) (bs : ℕ) :
    (set_batch_size ur r bs).m_batch_size = bs
    ∧ (set_batch_size ur r bs).m_num_visible = r.m_num_visible
    ∧ (set_batch_size ur r bs).m_num_hidden = r.m_num_hidden
    ∧ (set_batch_size ur r bs).m_params = r.m_params
    ∧ (set_batch_size ur r bs).m_num_visible_groups = r.m_num_visible_groups
    ∧ (set_batch_size ur r bs).m_visible_group_sizes = r.m_visible_group_sizes
    ∧ (set_batch_size ur r bs).m_visible_group_types = r.m_visible_group_types
    ∧ (set_batch_size ur r bs).m_visible_state_offsets = r.m_visible_state_offsets := by
  by_cases h : r.m_batch_size = bs <;> simp [set_batch_size, resetChain, h]

theorem foldl_add_if (c : ℕ → Prop) [DecidablePred c] (f : ℕ → α) (F0 : α)
    (n : ℕ) :
    (List.range n).foldl (fun acc k => if c k then acc + f k else acc) F0
      = F0 + ∑ k ∈ Finset.range n, (if c k then f k else 0) := by
  induction n with
  | zero => simp
  | succ m ih =>
    rw [List.range_succ, List.foldl_append, List.foldl_cons, List.foldl_nil,
      ih, Finset.sum_range_succ]
    by_cases hc : c m
    · rw [if_pos hc, if_pos hc, add_assoc]
    · rw [if_neg hc, if_neg hc, add_zero]

/-- The value of free_energy_val, rearranged: the bv accumulation over
columns equals the dot product of the visible bias with the row sums, and
the Gaussian group accumulation equals a sum over groups restricted to the
Gaussian ones. -/
theorem free_energy_val_eq (r : RBM α) (v : ℕ → ℕ → α) :
    free_energy_val ef lf r v =
      -((∑ i ∈ Finset.range r.m_num_visible, get_visible_bias r.m_params i *
            ∑ j ∈ Finset.range r.m_batch_size, v i j)
        + ∑ i ∈ Finset.range r.m_num_hidden, ∑ j ∈ Finset.range r.m_batch_size,
            lf (1 + ef (get_hidden_bias r.m_num_visible r.m_num_hidden r.m_params i
              + ∑ k2 ∈ Finset.range r.m_num_visible,
                  get_weights r.m_num_visible r.m_num_hidden r.m_params i k2 * v k2 j)))
        / (r.m_batch_size : α)
      + ∑ k ∈ Finset.range r.m_num_visible_groups,
          (if r.m_visible_group_types.getD k RBMVUT_BINARY = RBMVUT_GAUSSIAN then
            ∑ i ∈ Finset.range (r.m_visible_group_sizes.getD k 0),
              ∑ j ∈ Finset.range r.m_batch_size,
                1 / 2 * v (i + r.m_visible_state_offsets.getD k 0) j ^ 2
                  / (r.m_batch_size : α)
          else 0) := by
  simp only [free_energy_val]
  rw [foldl_add_if]
  congr 1
  have hbv : (∑ j ∈ Finset.range r.m_batch_size, ∑ i ∈ Finset.range r.m_num_visible,
        get_visible_bias r.m_params i * v i j)
      = ∑ i ∈ Finset.range r.m_num_visible, get_visible_bias r.m_params i *
          ∑ j ∈ Finset.range r.m_batch_size, v i j := by
    rw [Finset.sum_comm]
    exact Finset.sum_congr rfl (fun i _ => (Finset.mul_sum _ _ _).symm)
  rw [neg_one_mul, hbv]

/-- C4: for a visible matrix with batch_size columns, free_energy returns
-(visible_bias dot visible_sum + the sum over hidden units i and columns j
of log(1 + exp(hidden_bias + weights * visible)(i, j))) / batch_size,
plus, for every Gaussian visible group, 0.5 * visible(i, j)^2 / batch_size
summed over the entries of that group block; Binary and Softmax groups
contribute no extra term. -/
theorem claim_C4_free_energy_value (r : RBM α) (v : ℕ → ℕ → α) (v_cols : ℕ) :
    (free_energy ur ef lf r v v_cols).1 =
      -((∑ i ∈ Finset.range r.m_num_visible, get_visible_bias r.m_params i *
            ∑ j ∈ Finset.range v_cols, v i j)
        + ∑ i ∈ Finset.range r.m_num_hidden, ∑ j ∈ Finset.range v_cols,
            lf (1 + ef (get_hidden_bias r.m_num_visible r.m_num_hidden r.m_params i
              + ∑ k2 ∈ Finset.range r.m_num_visible,
                  get_weights r.m_num_visible r.m_num_hidden r.m_params i k2 * v k2 j)))
        / (v_cols : α)
      + ∑ k ∈ Finset.range r.m_num_visible_groups,
          (if r.m_visible_group_types.getD k RBMVUT_BINARY = RBMVUT_GAUSSIAN then
            ∑ i ∈ Finset.range (r.m_visible_group_sizes.getD k 0),
              ∑ j ∈ Finset.range v_cols,
                1 / 2 * v (i + r.m_visible_state_offsets.getD k 0) j ^ 2
                  / (v_cols : α)
          else 0) := by
  obtain ⟨f1, f2, f3, f4, f5, f6, f7, f8⟩ := set_batch_size_fields ur r v_cols
  show free_energy_val ef lf (set_batch_size ur r v_cols) v = _
  rw [free_energy_val_eq, f1, f2, f3, f4, f5, f6, f7, f8]

/-- C1: the claim says the regularization step of contrastive_divergence
adds the L1/L2 penalties exactly on the weight block
[num_visible, num_visible + num_hidden * num_visible) designated by
get_weights, leaving every other gradient entry unchanged.  Counterexample
at num_visible = 1, num_hidden = 1, l2_coefficient = 1, parameters all 1,
gradients all 0: the weight block is the single index 1, yet the step
leaves gradient entry 1 unchanged and instead adds the penalty at index 2,
which lies in the hidden-bias block read by get_hidden_bias. -/
theorem claim_C1_regularization_misses_weight_block :
    ¬ inWeightBlock 1 1 2
    ∧ inWeightBlock 1 1 1
    ∧ get_hidden_bias 1 1 (fun idx => (idx : ℚ)) 0 = 2
    ∧ cd_regularization 1 1 (0 : ℚ) 1 (fun _ => 1) (fun _ => 0) 2 = 1
    ∧ cd_regularization 1 1 (0 : ℚ) 1 (fun _ => 1) (fun _ => 0) 1 = 0 := by
  refine ⟨by decide, by decide, ?_, ?_, ?_⟩
  · norm_num [get_hidden_bias]
  · norm_num [cd_regularization]
  · norm_num [cd_regularization]

/-- C2: the claim says the Softmax branch of sample_visible produces, per
batch column, a one-hot draw distributed as the categorical distribution
given by the group means.  The draw is an integer from
UniformIntDistribution(0, 1), i.e. uniform on the two values 0 and 1; for
group means (3/10, 7/10) the draw 0 always selects unit 0 and the draw 1
always selects unit 1, so unit 0 is selected with probability 1/2, not
3/10: the output is not categorically distributed. -/
theorem claim_C2_integer_draw_not_categorical :
    (sample_visible_softmax_col 0 0 2 softmaxBugMeans 0 0 = 1
      ∧ sample_visible_softmax_col 0 0 2 softmaxBugMeans 0 1 = 0)
    ∧ (sample_visible_softmax_col 1 0 2 softmaxBugMeans 0 0 = 0
      ∧ sample_visible_softmax_col 1 0 2 softmaxBugMeans 0 1 = 1)
    ∧ (1 : ℚ) / 2 ≠ softmaxBugMeans 0 0 := by
  refine ⟨⟨?_, ?_⟩, ⟨?_, ?_⟩, by norm_num [softmaxBugMeans]⟩ <;>
    norm_num [sample_visible_softmax_col, softmaxCumScan, softmaxBugMeans,
      List.range_succ]

/-- C3: in each mini-batch step of RBM::train, the learning rate is decayed
exactly once, the gradient is computed at the momentum-shifted parameters
(momentum * velocity is added to the parameters before
contrastive_divergence runs), the new velocity is
momentum * velocity - alpha * gradient, and the total parameter change over
the step equals the new velocity. -/
theorem claim_C3_momentum_update_order (n : ℕ) (momentum decay : α)
    (g : (ℕ → α) → ℕ → α) (s : TrainState α) (k : ℕ) (hk : k < n) :
    (trainMiniBatchStep n momentum decay g s).alpha = decay * s.alpha
    ∧ (trainMiniBatchStep n momentum decay g s).param_updates k =
        momentum * s.param_updates k - (decay * s.alpha) *
          g (lookaheadParams n momentum s.m_params s.param_updates) k
    ∧ (trainMiniBatchStep n momentum decay g s).m_params k =
        s.m_params k + (trainMiniBatchStep n momentum decay g s).param_updates k := by
  refine ⟨rfl, ?_, ?_⟩
  · simp [trainMiniBatchStep, hk]
  · simp only [trainMiniBatchStep, lookaheadParams, if_pos hk]
    ring

/-- Witness for C3 at n = 1, momentum = 2, decay = 3, alpha = 11,
params = 5, velocity = 7, gradient oracle the identity view, k = 0. -/
theorem claim_C3_momentum_update_order_witness :
    (trainMiniBatchStep 1 (2 : ℚ) 3 (fun p k => p k)
        ⟨fun _ => 5, fun _ => 7, 11⟩).alpha = 3 * 11
    ∧ (trainMiniBatchStep 1 (2 : ℚ) 3 (fun p k => p k)
        ⟨fun _ => 5, fun _ => 7, 11⟩).param_updates 0 =
        2 * 7 - (3 * 11) *
          (fun p k => p k) (lookaheadParams 1 2 (fun _ => 5) (fun _ => 7)) 0
    ∧ (trainMiniBatchStep 1 (2 : ℚ) 3 (fun p k => p k)
        ⟨fun _ => 5, fun _ => 7, 11⟩).m_params 0 =
        5 + (trainMiniBatchStep 1 (2 : ℚ) 3 (fun p k => p k)
          ⟨fun _ => 5, fun _ => 7, 11⟩).param_updates 0 :=
  claim_C3_momentum_update_order 1 2 3 (fun p k => p k)
    ⟨fun _ => 5, fun _ => 7, 11⟩ 0 (by decide)

/-- C6: after any sequence of add_visible_group calls starting from a
freshly initialized model, the group sizes sum to num_visible, the offset
of the first group is 0, and the offset of every later group k equals the
offset of group k-1 plus the size of group k-1. -/
theorem claim_C6_registry_offsets (calls : List (ℕ × ERBMVisibleUnitType))
    (k : ℕ) (hk0 : 0 < k)
    (hk : k < ((calls.foldl (fun s c => addVisibleGroup s c.1 c.2)
      (initRBM (α := ℚ))).m_visible_group_sizes).length) :
    ((calls.foldl (fun s c => addVisibleGroup s c.1 c.2)
        (initRBM (α := ℚ))).m_visible_group_sizes).sum =
      (calls.foldl (fun s c => addVisibleGroup s c.1 c.2)
        (initRBM (α := ℚ))).m_num_visible
    ∧ ((calls.foldl (fun s c => addVisibleGroup s c.1 c.2)
        (initRBM (α := ℚ))).m_visible_state_offsets).getD 0 0 = 0
    ∧ ((calls.foldl (fun s c => addVisibleGroup s c.1 c.2)
        (initRBM (α := ℚ))).m_visible_state_offsets).getD k 0 =
      ((calls.foldl (fun s c => addVisibleGroup s c.1 c.2)
        (initRBM (α := ℚ))).m_visible_state_offsets).getD (k - 1) 0 +
      ((calls.foldl (fun s c => addVisibleGroup s c.1 c.2)
        (initRBM (α := ℚ))).m_visible_group_sizes).getD (k - 1) 0 := by
  obtain ⟨h1, h2, h3, h4, h5⟩ := registryWF_fold (α := ℚ) calls
  set r := calls.foldl (fun s c => addVisibleGroup s c.1 c.2)
    (initRBM (α := ℚ)) with hr
  refine ⟨h4, ?_, ?_⟩
  · rcases Nat.eq_zero_or_pos r.m_visible_group_sizes.length with h0 | hpos
    · rw [List.getD_eq_default]
      omega
    · rw [h5 0 hpos]
      rfl
  · rw [h5 k hk, h5 (k - 1) (by omega)]
    have hget := List.sum_take_succ r.m_visible_group_sizes (k - 1) (by omega)
    have hsucc : k - 1 + 1 = k := by omega
    rw [hsucc] at hget
    rw [hget]
    congr 1
    rw [List.getD_eq_getElem _ _ (by omega)]

theorem sample_visible_group_st_frame (k : ℕ) (r : RBM α) :
    (sample_visible_group_st ur ui k r).m_batch_size = r.m_batch_size
    ∧ (sample_visible_group_st ur ui k r).m_visible_state_offsets =
        r.m_visible_state_offsets
    ∧ (sample_visible_group_st ur ui k r).m_visible_group_sizes =
        r.m_visible_group_sizes := by
  unfold sample_visible_group_st
  cases h : r.m_visible_group_types.getD k RBMVUT_BINARY <;> simp [h]

theorem sample_visible_except_st_frame (E : ℤ) (r : RBM α) :
    (sample_visible_except_st ur ui E r).m_batch_size = r.m_batch_size
    ∧ (sample_visible_except_st ur ui E r).m_visible_state_offsets =
        r.m_visible_state_offsets
    ∧ (sample_visible_except_st ur ui E r).m_visible_group_sizes =
        r.m_visible_group_sizes := by
  suffices h : ∀ (L : List ℕ) (s : RBM α),
      ((L.foldl (fun s2 (k : ℕ) =>
          if (k : ℤ) = E then s2 else sample_visible_group_st ur ui k s2) s).m_batch_size
            = s.m_batch_size
        ∧ (L.foldl (fun s2 (k : ℕ) =>
          if (k : ℤ) = E then s2 else sample_visible_group_st ur ui k s2) s).m_visible_state_offsets
            = s.m_visible_state_offsets
        ∧ (L.foldl (fun s2 (k : ℕ) =>
          if (k : ℤ) = E then s2 else sample_visible_group_st ur ui k s2) s).m_visible_group_sizes
            = s.m_visible_group_sizes) by
    exact h _ r
  intro L
  induction L with
  | nil => intro s; exact ⟨rfl, rfl, rfl⟩
  | cons a L2 ih =>
    intro s
    rw [List.foldl_cons]
    by_cases ha : (a : ℤ) = E
    · rw [if_pos ha]
      exact ih s
    · rw [if_neg ha]
      obtain ⟨i1, i2, i3⟩ := ih (sample_visible_group_st ur ui a s)
      obtain ⟨g1, g2, g3⟩ := sample_visible_group_st_frame ur ui a s
      exact ⟨i1.trans g1, i2.trans g2, i3.trans g3⟩

theorem clamp_group_spec (off sz : ℕ) (ev : ℕ → ℕ → α) (r : RBM α) :
    (clamp_group off sz ev r).m_batch_size = r.m_batch_size
    ∧ (clamp_group off sz ev r).m_visible_state_offsets = r.m_visible_state_offsets
    ∧ (clamp_group off sz ev r).m_visible_group_sizes = r.m_visible_group_sizes
    ∧ ∀ i, i < sz → ∀ j, j < r.m_batch_size →
        (clamp_group off sz ev r).visible_state (off + i) j = ev i j := by
  refine ⟨rfl, rfl, rfl, ?_⟩
  intro i hi j hj
  show (if off ≤ off + i ∧ off + i < off + sz ∧ j < r.m_batch_size
    then ev (off + i - off) j else r.visible_state (off + i) j) = ev i j
  rw [if_pos ⟨Nat.le_add_right off i, by omega, hj⟩]
  congr 1
  omega

theorem swe_gibbs_inner_frame (E : ℤ) (steps n : ℕ) (r : RBM α) :
    (swe_gibbs_inner ur ui ef lf E steps n r).m_batch_size = r.m_batch_size
    ∧ (swe_gibbs_inner ur ui ef lf E steps n r).m_visible_state_offsets =
        r.m_visible_state_offsets
    ∧ (swe_gibbs_inner ur ui ef lf E steps n r).m_visible_group_sizes =
        r.m_visible_group_sizes := by
  by_cases hn : n < steps - 1
  · simp only [swe_gibbs_inner, if_pos hn]
    exact ⟨(sample_visible_except_st_frame ur ui E _).1,
      (sample_visible_except_st_frame ur ui E _).2.1,
      (sample_visible_except_st_frame ur ui E _).2.2⟩
  · simp only [swe_gibbs_inner, if_neg hn]
    exact ⟨rfl, rfl, rfl⟩

theorem swe_gibbs_step_spec (E : ℤ) (off sz : ℕ) (ev : ℕ → ℕ → α)
    (steps n : ℕ) (r : RBM α) :
    (swe_gibbs_step ur ui ef lf E off sz ev steps n r).m_batch_size = r.m_batch_size
    ∧ (swe_gibbs_step ur ui ef lf E off sz ev steps n r).m_visible_state_offsets =
        r.m_visible_state_offsets
    ∧ (swe_gibbs_step ur ui ef lf E off sz ev steps n r).m_visible_group_sizes =
        r.m_visible_group_sizes
    ∧ ∀ i, i < sz → ∀ j, j < r.m_batch_size →
        (swe_gibbs_step ur ui ef lf E off sz ev steps n r).visible_state (off + i) j
          = ev i j := by
  obtain ⟨i1, i2, i3⟩ := swe_gibbs_inner_frame ur ui ef lf E steps n r
  obtain ⟨c1, c2, c3, c4⟩ := clamp_group_spec off sz ev
    (swe_gibbs_inner ur ui ef lf E steps n r)
  refine ⟨c1.trans i1, c2.trans i2, c3.trans i3, ?_⟩
  intro i hi j hj
  exact c4 i hi j (i1.symm ▸ hj)

theorem swe_loop_spec (E : ℤ) (off sz : ℕ) (ev : ℕ → ℕ → α) (steps : ℕ)
    (L : List ℕ) (s : RBM α)
    (hs : ∀ i, i < sz → ∀ j, j < s.m_batch_size →
      s.visible_state (off + i) j = ev i j) :
    ((L.foldl (fun s2 n => swe_gibbs_step ur ui ef lf E off sz ev steps n s2) s).m_batch_size
        = s.m_batch_size
    ∧ (L.foldl (fun s2 n => swe_gibbs_step ur ui ef lf E off sz ev steps n s2) s).m_visible_state_offsets
        = s.m_visible_state_offsets
    ∧ (L.foldl (fun s2 n => swe_gibbs_step ur ui ef lf E off sz ev steps n s2) s).m_visible_group_sizes
        = s.m_visible_group_sizes
    ∧ ∀ i, i < sz → ∀ j, j < s.m_batch_size →
        (L.foldl (fun s2 n => swe_gibbs_step ur ui ef lf E off sz ev steps n s2) s).visible_state
          (off + i) j = ev i j) := by
  induction L generalizing s with
  | nil => exact ⟨rfl, rfl, rfl, hs⟩
  | cons a L2 ih =>
    rw [List.foldl_cons]
    obtain ⟨g1, g2, g3, g4⟩ := swe_gibbs_step_spec ur ui ef lf E off sz ev steps a s
    obtain ⟨i1, i2, i3, i4⟩ := ih (swe_gibbs_step ur ui ef lf E off sz ev steps a s)
      (fun i hi j hj => g4 i hi j (g1 ▸ hj))
    refine ⟨i1.trans g1, i2.trans g2, i3.trans g3, ?_⟩
    intro i hi j hj
    exact i4 i hi j (g1.symm ▸ hj)

theorem swe_core_spec (E : ℤ) (ev : ℕ → ℕ → α) (evCols steps : ℕ) (r : RBM α) :
    (swe_core ur ui ef lf E ev evCols steps r).m_batch_size = evCols
    ∧ (swe_core ur ui ef lf E ev evCols steps r).m_visible_state_offsets =
        r.m_visible_state_offsets
    ∧ (swe_core ur ui ef lf E ev evCols steps r).m_visible_group_sizes =
        r.m_visible_group_sizes
    ∧ ∀ i, i < r.m_visible_group_sizes.getD E.toNat 0 → ∀ j, j < evCols →
        (swe_core ur ui ef lf E ev evCols steps r).visible_state
          (r.m_visible_state_offsets.getD E.toNat 0 + i) j = ev i j := by
  obtain ⟨f1, f2, f3, f4, f5, f6, f7, f8⟩ := set_batch_size_fields ur r evCols
  obtain ⟨c1, c2, c3, c4⟩ := clamp_group_spec
    ((set_batch_size ur r evCols).m_visible_state_offsets.getD E.toNat 0)
    ((set_batch_size ur r evCols).m_visible_group_sizes.getD E.toNat 0)
    ev (set_batch_size ur r evCols)
  obtain ⟨l1, l2, l3, l4⟩ := swe_loop_spec ur ui ef lf E
    ((set_batch_size ur r evCols).m_visible_state_offsets.getD E.toNat 0)
    ((set_batch_size ur r evCols).m_visible_group_sizes.getD E.toNat 0)
    ev steps (List.range steps)
    (clamp_group ((set_batch_size ur r evCols).m_visible_state_offsets.getD E.toNat 0)
      ((set_batch_size ur r evCols).m_visible_group_sizes.getD E.toNat 0)
      ev (set_batch_size ur r evCols))
    (fun i hi j hj => c4 i hi j (c1 ▸ hj))
  refine ⟨l1.trans (c1.trans f1), l2.trans (c2.trans f8), l3.trans (c3.trans f6), ?_⟩
  intro i hi j hj
  have hi2 : i < (set_batch_size ur r evCols).m_visible_group_sizes.getD E.toNat 0 := by
    rw [f6]; exact hi
  have hj2 : j < (clamp_group
      ((set_batch_size ur r evCols).m_visible_state_offsets.getD E.toNat 0)
      ((set_batch_size ur r evCols).m_visible_group_sizes.getD E.toNat 0)
      ev (set_batch_size ur r evCols)).m_batch_size := by
    rw [c1, f1]; exact hj
  rw [← f8]
  exact l4 i hi2 j hj2

theorem take_sum_mono (l : List ℕ) (a b : ℕ) (h : a ≤ b) :
    (l.take a).sum ≤ (l.take b).sum := by
  have h2 : l.take b = l.take a ++ (l.drop a).take (b - a) := by
    rw [← List.take_add]
    congr 1
    omega
  rw [h2, List.sum_append]
  omega

/-- Two distinct registered groups occupy disjoint row ranges of the
visible state, given that offsets are running sums of sizes. -/
theorem registry_block_disjoint (r : RBM α)
    (hoff : ∀ k2, k2 < r.m_visible_group_sizes.length →
      r.m_visible_state_offsets.getD k2 0 = (r.m_visible_group_sizes.take k2).sum)
    (k k2 : ℕ) (hk : k < r.m_visible_group_sizes.length)
    (hk2 : k2 < r.m_visible_group_sizes.length) (hne : k2 ≠ k) (i : ℕ)
    (hlo : r.m_visible_state_offsets.getD k 0 ≤ i)
    (hhi : i < r.m_visible_state_offsets.getD k 0 + r.m_visible_group_sizes.getD k 0) :
    ¬ (r.m_visible_state_offsets.getD k2 0 ≤ i ∧
       i < r.m_visible_state_offsets.getD k2 0 + r.m_visible_group_sizes.getD k2 0) := by
  have hsucc : ∀ a, a < r.m_visible_group_sizes.length →
      r.m_visible_state_offsets.getD a 0 + r.m_visible_group_sizes.getD a 0 =
        (r.m_visible_group_sizes.take (a + 1)).sum := by
    intro a ha
    rw [hoff a ha, List.sum_take_succ _ a ha, List.getD_eq_getElem _ _ ha]
  rcases Nat.lt_or_ge k2 k with hlt | hge
  · have h1 : (r.m_visible_group_sizes.take (k2 + 1)).sum ≤
        (r.m_visible_group_sizes.take k).sum := take_sum_mono _ _ _ (by omega)
    have h2 := hsucc k2 hk2
    have h3 := hoff k hk
    omega
  · have h1 : (r.m_visible_group_sizes.take (k + 1)).sum ≤
        (r.m_visible_group_sizes.take k2).sum := take_sum_mono _ _ _ (by omega)
    have h2 := hsucc k hk
    have h3 := hoff k2 hk2
    omega

/-- group_transform leaves every entry outside its group row range
unchanged. -/
theorem group_transform_outside (bs off sz : ℕ) (ty : ERBMVisibleUnitType)
    (m : ℕ → ℕ → α) (i j : ℕ) (h : ¬ (off ≤ i ∧ i < off + sz)) :
    group_transform ef lf bs off sz ty m i j = m i j := by
  cases ty
  · exact if_neg (fun hc => h ⟨hc.1, hc.2.1⟩)
  · exact if_neg (fun hc => h ⟨hc.1, hc.2.1⟩)
  · rfl

/-- The Softmax maximum scan reads only group block rows, so it is
invariant under changes outside them. -/
theorem group_max_congr (off sz bs : ℕ) (m m2 : ℕ → ℕ → α)
    (hag : ∀ i2, i2 < sz → ∀ j, m (off + i2) j = m2 (off + i2) j)
    (hsz : 0 < sz) :
    group_max off sz bs m = group_max off sz bs m2 := by
  unfold group_max
  have hseed : m off 0 = m2 off 0 := by
    have h0 := hag 0 hsz 0
    simpa using h0
  rw [hseed]
  apply List.foldl_ext
  intro a i2 hi2
  have hm : ∀ j, m (off + i2) j = m2 (off + i2) j := hag i2 (List.mem_range.mp hi2)
  apply List.foldl_ext
  intro a2 j2 hj2
  rw [hm j2]

/-- group_transform reads only its group block rows, so on block entries
it agrees between matrices that agree on those rows. -/
theorem group_transform_congr_block (bs off sz : ℕ) (ty : ERBMVisibleUnitType)
    (m m2 : ℕ → ℕ → α)
    (hag : ∀ i2, i2 < sz → ∀ j, m (off + i2) j = m2 (off + i2) j)
    (hsz : 0 < sz) (i j : ℕ) (hlo : off ≤ i) (hhi : i < off + sz) :
    group_transform ef lf bs off sz ty m i j =
      group_transform ef lf bs off sz ty m2 i j := by
  have hmi : ∀ j2, m i j2 = m2 i j2 := by
    intro j2
    have h0 := hag (i - off) (by omega) j2
    have h1 : off + (i - off) = i := by omega
    rwa [h1] at h0
  have hgm := group_max_congr off sz bs m m2 hag hsz
  cases ty
  · simp only [group_transform]
    by_cases hc : off ≤ i ∧ i < off + sz ∧ j < bs
    · rw [if_pos hc, if_pos hc, hmi j]
    · rw [if_neg hc, if_neg hc]
      exact hmi j
  · simp only [group_transform]
    by_cases hc : off ≤ i ∧ i < off + sz ∧ j < bs
    · rw [if_pos hc, if_pos hc]
      have hsum : (∑ i2 ∈ Finset.range sz, ef (m (off + i2) j - group_max off sz bs m))
          = ∑ i2 ∈ Finset.range sz, ef (m2 (off + i2) j - group_max off sz bs m2) := by
        refine Finset.sum_congr rfl (fun i2 hi2 => ?_)
        rw [hag i2 (Finset.mem_range.mp hi2) j, hgm]
      rw [hsum, hmi j, hgm]
    · rw [if_neg hc, if_neg hc]
      exact hmi j
  · exact hmi j

/-- The group loop of mean_visible leaves a row untouched when none of the
processed groups contains it. -/
theorem mean_visible_fold_outside (r : RBM α) (i j : ℕ) (L : List ℕ)
    (m : ℕ → ℕ → α)
    (hL : ∀ k2 ∈ L, ¬ (r.m_visible_state_offsets.getD k2 0 ≤ i ∧
        i < r.m_visible_state_offsets.getD k2 0 + r.m_visible_group_sizes.getD k2 0)) :
    (L.foldl (fun m2 k2 => group_transform ef lf r.m_batch_size
      (r.m_visible_state_offsets.getD k2 0) (r.m_visible_group_sizes.getD k2 0)
      (r.m_visible_group_types.getD k2 RBMVUT_BINARY) m2) m) i j = m i j := by
  induction L generalizing m with
  | nil => rfl
  | cons a L2 ih =>
    rw [List.foldl_cons]
    rw [ih _ (fun k2 hk2 => hL k2 (List.mem_cons_of_mem a hk2))]
    exact group_transform_outside ef lf _ _ _ _ m i j (fun hc =>
      hL a (List.mem_cons_self a L2) hc)

/-- On the rows of group k, the whole group loop of mean_visible computes
exactly the transform of group k applied to the raw activations: earlier
and later groups write only their own disjoint row ranges, and group k
reads only its own rows. -/
theorem mean_visible_fold_eval (r : RBM α)
    (hoff : ∀ k2, k2 < r.m_visible_group_sizes.length →
      r.m_visible_state_offsets.getD k2 0 = (r.m_visible_group_sizes.take k2).sum)
    (k : ℕ) (hk : k < r.m_visible_group_sizes.length)
    (hsz : 0 < r.m_visible_group_sizes.getD k 0)
    (A : ℕ → ℕ → α) (nn : ℕ) (hknn : k < nn)
    (hnn : nn ≤ r.m_visible_group_sizes.length) :
    ∀ i, r.m_visible_state_offsets.getD k 0 ≤ i →
      i < r.m_visible_state_offsets.getD k 0 + r.m_visible_group_sizes.getD k 0 → ∀ j,
      ((List.range nn).foldl (fun m2 k2 => group_transform ef lf r.m_batch_size
        (r.m_visible_state_offsets.getD k2 0) (r.m_visible_group_sizes.getD k2 0)
        (r.m_visible_group_types.getD k2 RBMVUT_BINARY) m2) A) i j =
      group_transform ef lf r.m_batch_size
        (r.m_visible_state_offsets.getD k 0) (r.m_visible_group_sizes.getD k 0)
        (r.m_visible_group_types.getD k RBMVUT_BINARY) A i j := by
  induction nn with
  | zero => omega
  | succ m2 ih =>
    intro i hlo hhi j
    rw [List.range_succ, List.foldl_append, List.foldl_cons, List.foldl_nil]
    rcases Nat.lt_or_ge k m2 with hlt | hge
    · rw [group_transform_outside ef lf _ _ _ _ _ i j
        (registry_block_disjoint r hoff k m2 hk (by omega) (by omega) i hlo hhi)]
      exact ih hlt (by omega) i hlo hhi j
    · have hkm : k = m2 := by omega
      subst hkm
      have hpre : ∀ i2, i2 < r.m_visible_group_sizes.getD k 0 → ∀ j2,
          ((List.range k).foldl (fun m3 k2 => group_transform ef lf r.m_batch_size
            (r.m_visible_state_offsets.getD k2 0) (r.m_visible_group_sizes.getD k2 0)
            (r.m_visible_group_types.getD k2 RBMVUT_BINARY) m3) A)
            (r.m_visible_state_offsets.getD k 0 + i2) j2 =
          A (r.m_visible_state_offsets.getD k 0 + i2) j2 := by
        intro i2 hi2 j2
        apply mean_visible_fold_outside
        intro k2 hk2
        exact registry_block_disjoint r hoff k k2 hk
          (by have := List.mem_range.mp hk2; omega)
          (by have := List.mem_range.mp hk2; omega)
          _ (Nat.le_add_right _ _) (by omega)
      exact group_transform_congr_block ef lf _ _ _ _ _ _ hpre hsz i j hlo hhi

theorem exp_zero_eq_one (hpos : ∀ x : α, 0 < ef x)
    (hadd : ∀ x y : α, ef (x + y) = ef x * ef y) : ef 0 = 1 := by
  have h := hadd 0 0
  rw [add_zero] at h
  have h2 : ef 0 * 1 = ef 0 * ef 0 := by rw [mul_one]; exact h
  exact (mul_left_cancel₀ (ne_of_gt (hpos 0)) h2).symm

theorem exp_sub_div (hpos : ∀ x : α, 0 < ef x)
    (hadd : ∀ x y : α, ef (x + y) = ef x * ef y) (x y : α) :
    ef (x - y) = ef x / ef y := by
  have h1 : ef (x - y) * ef y = ef x := by
    rw [← hadd]
    congr 1
    ring
  exact (eq_div_iff (ne_of_gt (hpos y))).mpr h1

/-- The normalized exponential with any constant c subtracted inside both
the numerator and the log-sum-exp normalizer equals the plain softmax
value: the shift cancels. -/
theorem softmax_shift (hpos : ∀ x : α, 0 < ef x)
    (hadd : ∀ x y : α, ef (x + y) = ef x * ef y)
    (hlog : ∀ x : α, 0 < x → ef (lf x) = x)
    (sz : ℕ) (hsz : 0 < sz) (f : ℕ → α) (c : α) (i0 : ℕ) :
    ef (f i0 - c - lf (∑ i2 ∈ Finset.range sz, ef (f i2 - c))) =
      ef (f i0) / ∑ i2 ∈ Finset.range sz, ef (f i2) := by
  have hTpos : 0 < ∑ i2 ∈ Finset.range sz, ef (f i2) :=
    Finset.sum_pos (fun _ _ => hpos _) (Finset.nonempty_range_iff.mpr (by omega))
  have hSpos : 0 < ∑ i2 ∈ Finset.range sz, ef (f i2 - c) :=
    Finset.sum_pos (fun _ _ => hpos _) (Finset.nonempty_range_iff.mpr (by omega))
  have hS : (∑ i2 ∈ Finset.range sz, ef (f i2 - c)) =
      (∑ i2 ∈ Finset.range sz, ef (f i2)) / ef c := by
    rw [Finset.sum_div]
    exact Finset.sum_congr rfl (fun i2 _ => exp_sub_div ef hpos hadd (f i2) c)
  rw [exp_sub_div ef hpos hadd (f i0 - c)
      (lf (∑ i2 ∈ Finset.range sz, ef (f i2 - c))),
    hlog _ hSpos, exp_sub_div ef hpos hadd (f i0) c, hS]
  have hc0 : ef c ≠ 0 := ne_of_gt (hpos c)
  have hT0 : (∑ i2 ∈ Finset.range sz, ef (f i2)) ≠ 0 := ne_of_gt hTpos
  field_simp

/-- C7: calling set_batch_size with the current batch size changes
nothing: the whole state, including both state buffers, the Gibbs chain
and the rng position, is returned unchanged, so reset_chain is not invoked
(no draw is consumed).  Calling it with a different value records the new
size, reallocates both state buffers with the new dimensions and
re-randomizes every visible chain entry from fresh uniform draws. -/
theorem claim_C7_set_batch_size_same_noop (r : RBM α) (bs : ℕ) :
    set_batch_size ur r r.m_batch_size = r
    ∧ (bs ≠ r.m_batch_size →
        chain_reset_post ur (set_batch_size ur r bs)
          r.m_num_visible r.m_num_hidden bs r.rng_pos
        ∧ (set_batch_size ur r bs).rng_pos = r.rng_pos + r.m_num_visible * bs) :=
  ⟨set_batch_size_noop ur r r.m_batch_size rfl,
   fun hbs => set_batch_size_changed ur r bs hbs⟩

/-- Witness for C7 on a concrete one-group model resized from 0 to 2. -/
theorem claim_C7_set_batch_size_same_noop_witness :
    (2 : ℕ) ≠ (addVisibleGroup (initRBM (α := ℚ)) 1 RBMVUT_BINARY).m_batch_size
    ∧ set_batch_size (fun _ => (1 : ℚ))
        (addVisibleGroup (initRBM (α := ℚ)) 1 RBMVUT_BINARY)
        (addVisibleGroup (initRBM (α := ℚ)) 1 RBMVUT_BINARY).m_batch_size =
      addVisibleGroup (initRBM (α := ℚ)) 1 RBMVUT_BINARY
    ∧ (chain_reset_post (fun _ => (1 : ℚ))
        (set_batch_size (fun _ => (1 : ℚ))
          (addVisibleGroup (initRBM (α := ℚ)) 1 RBMVUT_BINARY) 2)
        (addVisibleGroup (initRBM (α := ℚ)) 1 RBMVUT_BINARY).m_num_visible
        (addVisibleGroup (initRBM (α := ℚ)) 1 RBMVUT_BINARY).m_num_hidden 2
        (addVisibleGroup (initRBM (α := ℚ)) 1 RBMVUT_BINARY).rng_pos
      ∧ (set_batch_size (fun _ => (1 : ℚ))
          (addVisibleGroup (initRBM (α := ℚ)) 1 RBMVUT_BINARY) 2).rng_pos =
        (addVisibleGroup (initRBM (α := ℚ)) 1 RBMVUT_BINARY).rng_pos +
        (addVisibleGroup (initRBM (α := ℚ)) 1 RBMVUT_BINARY).m_num_visible * 2) :=
  ⟨by decide,
   (claim_C7_set_batch_size_same_noop (fun _ => (1 : ℚ))
     (addVisibleGroup (initRBM (α := ℚ)) 1 RBMVUT_BINARY) 2).1,
   (claim_C7_set_batch_size_same_noop (fun _ => (1 : ℚ))
     (addVisibleGroup (initRBM (α := ℚ)) 1 RBMVUT_BINARY) 2).2 (by decide)⟩

/-- C8 counterexample: the claim says every group index outside the valid
range [0, num_visible_groups) is rejected; but the require checks only the
upper bound, so the negative index -1, which is outside the valid range of
a one-group model, passes the check and sample_group proceeds to sample
and returns a result. -/
theorem claim_C8_counterexample_negative_index :
    ¬ (0 ≤ (-1 : ℤ) ∧ (-1 : ℤ) <
        ((addVisibleGroup (initRBM (α := ℚ)) 1 RBMVUT_BINARY).m_num_visible_groups : ℤ))
    ∧ (sample_group (fun _ => (1 : ℚ)) (fun _ => 0) (fun x => x) (fun x => x)
        (-1) 0 1 (addVisibleGroup (initRBM (α := ℚ)) 1 RBMVUT_BINARY)).isOk = true := by
  exact ⟨by decide, rfl⟩

/-- C8 amended: every call of sample_group, sample_with_evidence or
sample_group_with_evidence with a group index greater than or equal to
num_visible_groups fails with a descriptive error before any model state
is modified (only the error value is returned); group indices below the
lower bound 0 of the valid range are not rejected by the check. -/
theorem claim_C8_amended_upper_bound_check (r : RBM α) (V E : ℤ)
    (steps bsz evidence_cols : ℕ) (evidence : ℕ → ℕ → α)
    (hV : (r.m_num_visible_groups : ℤ) ≤ V)
    (hE : (r.m_num_visible_groups : ℤ) ≤ E) :
    sample_group ur ui ef lf V steps bsz r =
      Except.error "Visible group index out of bounds"
    ∧ sample_with_evidence ur ui ef lf E evidence evidence_cols steps r =
      Except.error "Visible group index out of bounds"
    ∧ sample_group_with_evidence ur ui ef lf V E evidence evidence_cols steps r =
      Except.error "Visible group index out of bounds" := by
  refine ⟨?_, ?_, ?_⟩ <;>
    simp [sample_group, sample_with_evidence, sample_group_with_evidence,
      not_lt.mpr hV, not_lt.mpr hE]

/-- Witness for C8 amended: index 5 on a one-group model. -/
theorem claim_C8_amended_upper_bound_check_witness :
    (((addVisibleGroup (initRBM (α := ℚ)) 1 RBMVUT_BINARY).m_num_visible_groups : ℤ) ≤ 5
      ∧ ((addVisibleGroup (initRBM (α := ℚ)) 1 RBMVUT_BINARY).m_num_visible_groups : ℤ) ≤ 5)
    ∧ sample_group (fun _ => (1 : ℚ)) (fun _ => 0) (fun x => x) (fun x => x)
        5 0 1 (addVisibleGroup (initRBM (α := ℚ)) 1 RBMVUT_BINARY) =
      Except.error "Visible group index out of bounds"
    ∧ sample_with_evidence (fun _ => (1 : ℚ)) (fun _ => 0) (fun x => x) (fun x => x)
        5 (fun _ _ => 0) 1 0 (addVisibleGroup (initRBM (α := ℚ)) 1 RBMVUT_BINARY) =
      Except.error "Visible group index out of bounds"
    ∧ sample_group_with_evidence (fun _ => (1 : ℚ)) (fun _ => 0) (fun x => x) (fun x => x)
        5 5 (fun _ _ => 0) 1 0 (addVisibleGroup (initRBM (α := ℚ)) 1 RBMVUT_BINARY) =
      Except.error "Visible group index out of bounds" := by
  have h := claim_C8_amended_upper_bound_check (fun _ => (1 : ℚ)) (fun _ => 0)
    (fun x => x) (fun x => x)
    (addVisibleGroup (initRBM (α := ℚ)) 1 RBMVUT_BINARY) 5 5 0 1 1 (fun _ _ => 0)
    (by decide) (by decide)
  exact ⟨⟨by decide, by decide⟩, h.1, h.2.1, h.2.2⟩

/-- C10: free_energy, reconstruction_error and pseudo_likelihood each call
set_batch_size with the input column count on entry; whenever that count
differs from the current batch size, each of these queries reallocates
both state buffers and re-randomizes the visible Gibbs chain from fresh
uniform draws, destroying the persistent-CD chain state. -/
theorem claim_C10_queries_destroy_chain (r : RBM α) (v : ℕ → ℕ → α)
    (v_cols : ℕ) (hbs : v_cols ≠ r.m_batch_size)
    (hbin : r.m_visible_group_types.all (fun t => t == RBMVUT_BINARY) = true) :
    chain_reset_post ur ((free_energy ur ef lf r v v_cols).2)
      r.m_num_visible r.m_num_hidden v_cols r.rng_pos
    ∧ chain_reset_post ur ((reconstruction_error ur ef lf r v v_cols).2)
        r.m_num_visible r.m_num_hidden v_cols r.rng_pos
    ∧ (pseudo_likelihood ur ui ef lf r v v_cols =
        Except.ok (pseudo_likelihood_core ur ui ef lf r v v_cols)
      ∧ chain_reset_post ur ((pseudo_likelihood_core ur ui ef lf r v v_cols).2)
          r.m_num_visible r.m_num_hidden v_cols r.rng_pos) := by
  obtain ⟨⟨p1, p2, p3, p5⟩, p4⟩ := set_batch_size_changed ur r v_cols hbs
  have hinner : ∀ s : RBM α, s.m_batch_size = v_cols →
      set_batch_size ur s v_cols = s := fun s hs => set_batch_size_noop ur s v_cols hs
  refine ⟨⟨p1, p2, p3, p5⟩, ⟨p1, p2, p3, p5⟩, ?_, ?_⟩
  · simp [pseudo_likelihood, hbin]
  · have hcore : (pseudo_likelihood_core ur ui ef lf r v v_cols).2 =
        { set_batch_size ur r v_cols with
          rng_pos := (set_batch_size ur r v_cols).rng_pos +
            (set_batch_size ur r v_cols).m_batch_size } := by
      exact hinner _ p1
    rw [hcore]
    exact ⟨p1, p2, p3, p5⟩

/-- Witness for C10 on a concrete all-Binary one-group model resized from
0 to 2 columns. -/
theorem claim_C10_queries_destroy_chain_witness :
    ((2 : ℕ) ≠ (addVisibleGroup (initRBM (α := ℚ)) 1 RBMVUT_BINARY).m_batch_size
      ∧ ((addVisibleGroup (initRBM (α := ℚ)) 1 RBMVUT_BINARY).m_visible_group_types.all
          (fun t => t == RBMVUT_BINARY) = true))
    ∧ chain_reset_post (fun _ => (1 : ℚ))
        ((free_energy (fun _ => (1 : ℚ)) (fun x => x) (fun x => x)
          (addVisibleGroup (initRBM (α := ℚ)) 1 RBMVUT_BINARY) (fun _ _ => 0) 2).2)
        (addVisibleGroup (initRBM (α := ℚ)) 1 RBMVUT_BINARY).m_num_visible
        (addVisibleGroup (initRBM (α := ℚ)) 1 RBMVUT_BINARY).m_num_hidden 2
        (addVisibleGroup (initRBM (α := ℚ)) 1 RBMVUT_BINARY).rng_pos
    ∧ chain_reset_post (fun _ => (1 : ℚ))
        ((reconstruction_error (fun _ => (1 : ℚ)) (fun x => x) (fun x => x)
          (addVisibleGroup (initRBM (α := ℚ)) 1 RBMVUT_BINARY) (fun _ _ => 0) 2).2)
        (addVisibleGroup (initRBM (α := ℚ)) 1 RBMVUT_BINARY).m_num_visible
        (addVisibleGroup (initRBM (α := ℚ)) 1 RBMVUT_BINARY).m_num_hidden 2
        (addVisibleGroup (initRBM (α := ℚ)) 1 RBMVUT_BINARY).rng_pos
    ∧ (pseudo_likelihood (fun _ => (1 : ℚ)) (fun _ => 0) (fun x => x) (fun x => x)
          (addVisibleGroup (initRBM (α := ℚ)) 1 RBMVUT_BINARY) (fun _ _ => 0) 2 =
        Except.ok (pseudo_likelihood_core (fun _ => (1 : ℚ)) (fun _ => 0)
          (fun x => x) (fun x => x)
          (addVisibleGroup (initRBM (α := ℚ)) 1 RBMVUT_BINARY) (fun _ _ => 0) 2)
      ∧ chain_reset_post (fun _ => (1 : ℚ))
          ((pseudo_likelihood_core (fun _ => (1 : ℚ)) (fun _ => 0)
            (fun x => x) (fun x => x)
            (addVisibleGroup (initRBM (α := ℚ)) 1 RBMVUT_BINARY) (fun _ _ => 0) 2).2)
          (addVisibleGroup (initRBM (α := ℚ)) 1 RBMVUT_BINARY).m_num_visible
          (addVisibleGroup (initRBM (α := ℚ)) 1 RBMVUT_BINARY).m_num_hidden 2
          (addVisibleGroup (initRBM (α := ℚ)) 1 RBMVUT_BINARY).rng_pos) := by
  have h := claim_C10_queries_destroy_chain (fun _ => (1 : ℚ)) (fun _ => 0)
    (fun x => x) (fun x => x)
    (addVisibleGroup (initRBM (α := ℚ)) 1 RBMVUT_BINARY) (fun _ _ => 0) 2
    (by decide) (by decide)
  exact ⟨⟨by decide, by decide⟩, h.1, h.2.1, h.2.2⟩

/-- C9: for every evidence matrix, every number of Gibbs steps and every
valid group index E, sample_group_with_evidence with V = E returns a
matrix equal entry-for-entry to the evidence input (on the result block of
group-size rows and evidence-column-count columns), because the evidence
group is clamped before the Gibbs loop and re-clamped after every step. -/
theorem claim_C9_evidence_group_returned (r : RBM α) (E : ℕ)
    (hE : E < r.m_num_visible_groups) (ev : ℕ → ℕ → α) (evCols steps : ℕ) :
    ∃ p : (ℕ → ℕ → α) × RBM α,
      sample_group_with_evidence ur ui ef lf (E : ℤ) (E : ℤ) ev evCols steps r
        = Except.ok p
      ∧ ∀ i, i < r.m_visible_group_sizes.getD E 0 → ∀ j, j < evCols →
          p.1 i j = ev i j := by
  have hEi : (E : ℤ) < (r.m_num_visible_groups : ℤ) := by exact_mod_cast hE
  obtain ⟨s1, s2, s3, s4⟩ := swe_core_spec ur ui ef lf (E : ℤ) ev evCols steps r
  rw [Int.toNat_natCast] at s4
  refine ⟨⟨fun i j =>
      (swe_core ur ui ef lf (E : ℤ) ev evCols steps r).visible_state
        (i + (swe_core ur ui ef lf (E : ℤ) ev evCols steps r).m_visible_state_offsets.getD
          (Int.toNat (E : ℤ)) 0) j,
      swe_core ur ui ef lf (E : ℤ) ev evCols steps r⟩, ?_, ?_⟩
  · unfold sample_group_with_evidence sample_with_evidence
    rw [if_pos hEi, if_pos hEi]
  · intro i hi j hj
    show (swe_core ur ui ef lf (E : ℤ) ev evCols steps r).visible_state
        (i + (swe_core ur ui ef lf (E : ℤ) ev evCols steps r).m_visible_state_offsets.getD
          (Int.toNat (E : ℤ)) 0) j = ev i j
    rw [Int.toNat_natCast, s2, Nat.add_comm]
    exact s4 i hi j hj

/-- Witness for C9: a one-group Binary model, evidence group 0, one batch
column, one Gibbs step. -/
theorem claim_C9_evidence_group_returned_witness :
    (0 : ℕ) < (addVisibleGroup (initRBM (α := ℚ)) 2 RBMVUT_BINARY).m_num_visible_groups
    ∧ ∃ p : (ℕ → ℕ → ℚ) × RBM ℚ,
        sample_group_with_evidence (fun _ => (1 : ℚ)) (fun _ => 0)
          (fun x => x) (fun x => x) ((0 : ℕ) : ℤ) ((0 : ℕ) : ℤ)
          (fun i j => ((i + 2 * j : ℕ) : ℚ)) 1 1
          (addVisibleGroup (initRBM (α := ℚ)) 2 RBMVUT_BINARY)
          = Except.ok p
        ∧ ∀ i, i < (addVisibleGroup (initRBM (α := ℚ)) 2
              RBMVUT_BINARY).m_visible_group_sizes.getD 0 0 → ∀ j, j < 1 →
            p.1 i j = ((i + 2 * j : ℕ) : ℚ) :=
  ⟨by decide,
   claim_C9_evidence_group_returned (fun _ => (1 : ℚ)) (fun _ => 0)
     (fun x => x) (fun x => x)
     (addVisibleGroup (initRBM (α := ℚ)) 2 RBMVUT_BINARY) 0 (by decide)
     (fun i j => ((i + 2 * j : ℕ) : ℚ)) 1 1⟩

/-- C5: for every Softmax visible group of a model whose registry offsets
are the running sums produced by add_visible_group, and every batch
column, the group entries written by mean_visible are non-negative, sum to
exactly 1, and equal the numerically stabilized softmax (per-column
maximum subtracted, normalized by log-sum-exp, as the specification words
it) of the linear activations weights^T * hidden + visible_bias restricted
to that group and column.  exp and log are abstract, constrained by the
three hypotheses, and instantiated with Real.exp / Real.log in the
witness. -/
theorem claim_C5_softmax_mean_visible (r : RBM α) (H : ℕ → ℕ → α) (k : ℕ)
    (hng : r.m_num_visible_groups = r.m_visible_group_sizes.length)
    (hoff : ∀ k2, k2 < r.m_visible_group_sizes.length →
      r.m_visible_state_offsets.getD k2 0 = (r.m_visible_group_sizes.take k2).sum)
    (hk : k < r.m_num_visible_groups)
    (hty : r.m_visible_group_types.getD k RBMVUT_BINARY = RBMVUT_SOFTMAX)
    (hsz : 0 < r.m_visible_group_sizes.getD k 0)
    (hpos : ∀ x : α, 0 < ef x)
    (hadd : ∀ x y : α, ef (x + y) = ef x * ef y)
    (hlog : ∀ x : α, 0 < x → ef (lf x) = x)
    (j : ℕ) (hj : j < r.m_batch_size) :
    (∀ i, i < r.m_visible_group_sizes.getD k 0 →
      0 ≤ mean_visible_mat ef lf r H (r.m_visible_state_offsets.getD k 0 + i) j)
    ∧ (∑ i ∈ Finset.range (r.m_visible_group_sizes.getD k 0),
        mean_visible_mat ef lf r H (r.m_visible_state_offsets.getD k 0 + i) j) = 1
    ∧ (∀ i, i < r.m_visible_group_sizes.getD k 0 →
        mean_visible_mat ef lf r H (r.m_visible_state_offsets.getD k 0 + i) j =
          spec_softmax_entry ef lf (r.m_visible_state_offsets.getD k 0)
            (r.m_visible_group_sizes.getD k 0) (mean_visible_act r H) i j) := by
  set off := r.m_visible_state_offsets.getD k 0 with hoffdef
  set sz := r.m_visible_group_sizes.getD k 0 with hszdef
  set A := mean_visible_act r H with hAdef
  set T := ∑ i2 ∈ Finset.range sz, ef (A (off + i2) j) with hTdef
  have hTpos : 0 < T := by
    rw [hTdef]
    exact Finset.sum_pos (fun _ _ => hpos _)
      (Finset.nonempty_range_iff.mpr (by omega))
  have hT0 : T ≠ 0 := ne_of_gt hTpos
  have hval : ∀ i, i < sz →
      mean_visible_mat ef lf r H (off + i) j = ef (A (off + i) j) / T := by
    intro i hi
    have hM : mean_visible_mat ef lf r H (off + i) j =
        group_transform ef lf r.m_batch_size off sz
          (r.m_visible_group_types.getD k RBMVUT_BINARY) A (off + i) j :=
      mean_visible_fold_eval ef lf r hoff k (by omega) hsz A
        r.m_num_visible_groups (by omega) (by omega) (off + i)
        (Nat.le_add_right _ _) (by omega) j
    rw [hM, hty]
    simp only [group_transform]
    rw [if_pos ⟨Nat.le_add_right _ _, by omega, hj⟩]
    have hshift := softmax_shift ef lf hpos hadd hlog sz hsz
      (fun i2 => A (off + i2) j) (group_max off sz r.m_batch_size A) i
    rw [hTdef]
    simpa using hshift
  have hnn : ∀ i, i < sz → 0 ≤ mean_visible_mat ef lf r H (off + i) j := by
    intro i hi
    rw [hval i hi]
    exact le_of_lt (div_pos (hpos _) hTpos)
  have hsum : (∑ i ∈ Finset.range sz, mean_visible_mat ef lf r H (off + i) j) = 1 := by
    rw [Finset.sum_congr rfl (fun i hi => hval i (Finset.mem_range.mp hi)),
      ← Finset.sum_div, ← hTdef, div_self hT0]
  have hspec : ∀ i, i < sz →
      spec_softmax_entry ef lf off sz A i j = ef (A (off + i) j) / T := by
    intro i hi
    have hshift := softmax_shift ef lf hpos hadd hlog sz hsz
      (fun i2 => A (off + i2) j) (spec_col_max off sz A j) i
    rw [hTdef]
    unfold spec_softmax_entry
    simpa using hshift
  exact ⟨hnn, hsum, fun i hi => by rw [hval i hi]; exact (hspec i hi).symm⟩

/-- Concrete model for the C5 witness: one Softmax group of two units and
batch size 1 (instantiated at the reals in the witness). -/
def softmaxWitnessRBM : RBM α :=
  { addVisibleGroup initRBM 2 RBMVUT_SOFTMAX with m_batch_size := 1 }

/-- Witness for C5: the concrete one-Softmax-group model over the reals
with exp and log instantiated as Real.exp and Real.log, hidden state all
zero, batch column 0. -/
theorem claim_C5_softmax_mean_visible_witness :
    ((softmaxWitnessRBM (α := ℝ)).m_num_visible_groups =
        (softmaxWitnessRBM (α := ℝ)).m_visible_group_sizes.length
      ∧ (0 : ℕ) < (softmaxWitnessRBM (α := ℝ)).m_num_visible_groups
      ∧ (softmaxWitnessRBM (α := ℝ)).m_visible_group_types.getD 0 RBMVUT_BINARY = RBMVUT_SOFTMAX
      ∧ 0 < (softmaxWitnessRBM (α := ℝ)).m_visible_group_sizes.getD 0 0
      ∧ (0 : ℕ) < (softmaxWitnessRBM (α := ℝ)).m_batch_size)
    ∧ ((∀ i, i < (softmaxWitnessRBM (α := ℝ)).m_visible_group_sizes.getD 0 0 →
        0 ≤ mean_visible_mat Real.exp Real.log (softmaxWitnessRBM (α := ℝ)) (fun _ _ => 0)
          ((softmaxWitnessRBM (α := ℝ)).m_visible_state_offsets.getD 0 0 + i) 0)
      ∧ (∑ i ∈ Finset.range ((softmaxWitnessRBM (α := ℝ)).m_visible_group_sizes.getD 0 0),
          mean_visible_mat Real.exp Real.log (softmaxWitnessRBM (α := ℝ)) (fun _ _ => 0)
            ((softmaxWitnessRBM (α := ℝ)).m_visible_state_offsets.getD 0 0 + i) 0) = 1
      ∧ (∀ i, i < (softmaxWitnessRBM (α := ℝ)).m_visible_group_sizes.getD 0 0 →
          mean_visible_mat Real.exp Real.log (softmaxWitnessRBM (α := ℝ)) (fun _ _ => 0)
            ((softmaxWitnessRBM (α := ℝ)).m_visible_state_offsets.getD 0 0 + i) 0 =
            spec_softmax_entry Real.exp Real.log
              ((softmaxWitnessRBM (α := ℝ)).m_visible_state_offsets.getD 0 0)
              ((softmaxWitnessRBM (α := ℝ)).m_visible_group_sizes.getD 0 0)
              (mean_visible_act (softmaxWitnessRBM (α := ℝ)) (fun _ _ => 0)) i 0)) := by
  have hoffw : ∀ k2, k2 < (softmaxWitnessRBM (α := ℝ)).m_visible_group_sizes.length →
      (softmaxWitnessRBM (α := ℝ)).m_visible_state_offsets.getD k2 0 =
        ((softmaxWitnessRBM (α := ℝ)).m_visible_group_sizes.take k2).sum := by
    intro k2 hk2
    have h1 : (softmaxWitnessRBM (α := ℝ)).m_visible_group_sizes.length = 1 := rfl
    rw [h1] at hk2
    have h0 : k2 = 0 := by omega
    subst h0
    rfl
  refine ⟨⟨rfl, by decide, rfl, by decide, by decide⟩, ?_⟩
  exact claim_C5_softmax_mean_visible Real.exp Real.log (softmaxWitnessRBM (α := ℝ))
    (fun _ _ => 0) 0 rfl hoffw (by decide) rfl (by decide)
    (fun x => Real.exp_pos x) (fun x y => Real.exp_add x y)
    (fun x hx => Real.exp_log hx) 0 (by decide)

/-- Witness for C6 with two registered groups and k = 1. -/
theorem claim_C6_registry_offsets_witness :
    (0 < 1
      ∧ 1 < (([((2 : ℕ), RBMVUT_BINARY), ((3 : ℕ), RBMVUT_GAUSSIAN)].foldl
          (fun s c => addVisibleGroup s c.1 c.2)
          (initRBM (α := ℚ))).m_visible_group_sizes).length)
    ∧ (([((2 : ℕ), RBMVUT_BINARY), ((3 : ℕ), RBMVUT_GAUSSIAN)].foldl
          (fun s c => addVisibleGroup s c.1 c.2)
          (initRBM (α := ℚ))).m_visible_group_sizes).sum =
        ([((2 : ℕ), RBMVUT_BINARY), ((3 : ℕ), RBMVUT_GAUSSIAN)].foldl
          (fun s c => addVisibleGroup s c.1 c.2)
          (initRBM (α := ℚ))).m_num_visible
    ∧ (([((2 : ℕ), RBMVUT_BINARY), ((3 : ℕ), RBMVUT_GAUSSIAN)].foldl
          (fun s c => addVisibleGroup s c.1 c.2)
          (initRBM (α := ℚ))).m_visible_state_offsets).getD 0 0 = 0
    ∧ (([((2 : ℕ), RBMVUT_BINARY), ((3 : ℕ), RBMVUT_GAUSSIAN)].foldl
          (fun s c => addVisibleGroup s c.1 c.2)
          (initRBM (α := ℚ))).m_visible_state_offsets).getD 1 0 =
        (([((2 : ℕ), RBMVUT_BINARY), ((3 : ℕ), RBMVUT_GAUSSIAN)].foldl
          (fun s c => addVisibleGroup s c.1 c.2)
          (initRBM (α := ℚ))).m_visible_state_offsets).getD 0 0 +
        (([((2 : ℕ), RBMVUT_BINARY), ((3 : ℕ), RBMVUT_GAUSSIAN)].foldl
          (fun s c => addVisibleGroup s c.1 c.2)
          (initRBM (α := ℚ))).m_visible_group_sizes).getD 0 0 := by
  have h := claim_C6_registry_offsets
    [((2 : ℕ), RBMVUT_BINARY), ((3 : ℕ), RBMVUT_GAUSSIAN)] 1
    (by decide) (by decide)
  exact ⟨⟨by decide, by decide⟩, h.1, h.2.1, h.2.2⟩

end Shogun
